import Mathlib

/-!
Verification of the ai-notes-app reconciliation core.

This file gives a shallow embedding, in Lean 4, of the state-management core
of the ai-notes-app repository and proves properties of it:

* `src/types/note.ts` — the `TextBlock` data model, `createTextBlock`,
  `blocksToMarkdown` (serialization) and `parseMarkdownToBlocks` (parsing);
* `src/store/noteStore.ts` — the Zustand store: block CRUD
  (`addBlock`, `updateBlock`, `insertBlockAfter`, `deleteBlock`,
  `mergeWithPrevious`), the undo/redo history (`saveSnapshot`, `undo`,
  `redo`), review staging (`confirmReview`, `rejectReview`) and the two AI
  response routers (`handleBlockAIResponse`, `handleGlobalAIResponse`);
* the inline `inquire` fallback of `src/components/EditorBlock.tsx`.

Modelling conventions:

* Texts are `List Char` (`Text`); JavaScript string operations are modelled
  character by character.
* The store state is an explicit `NoteState` record; every action is a pure
  function `... → NoteState → NoteState` obtained by sequencing the `set`
  calls of the TypeScript implementation.
* `Date.now()` and `Math.random()` are impure; wherever the source derives a
  fresh identifier or timestamp from them, the embedding takes the generated
  value as an explicit parameter (`now : Nat`, `ids : Nat → String`).
* `lastSavedSnapshot` holds `JSON.stringify(blocks)` in the source, with the
  initial value `""`.  `JSON.stringify` is injective on block arrays and `""`
  is not the image of any array, so the marker is modelled as
  `Option (List TextBlock)` with `none` for the initial `""`; the equality
  test `JSON.stringify(blocks) === lastSavedSnapshot` becomes
  `some blocks = lastSavedSnapshot`.
* Recursions that are not structural in the source data (the blank-line
  splitter, the LCS underlying the diff count) take an explicit fuel argument
  that is always at least the input length, making them structural and hence
  computable by `decide`; the fuel never runs out on the stated inputs.
-/

namespace AINotes

/-- Texts are lists of characters. -/
abbrev Text := List Char

/-- JavaScript whitespace (the characters relevant to `String.prototype.trim`
for the texts handled here: space, tab, newline, carriage return, vertical
tab, form feed). -/
def isJsWs (c : Char) : Bool :=
  c == ' ' || c == '\t' || c == '\n' || c == '\r' || c == '\x0b' || c == '\x0c'

/-- Model of `String.prototype.trim`: drop whitespace from both ends. -/
def jsTrim (t : Text) : Text :=
  ((t.dropWhile isJsWs).reverse.dropWhile isJsWs).reverse

/-- Model of the JavaScript test `text.trim() === ""` (equivalently, the
falsiness of `text.trim()`). -/
def isBlankB (t : Text) : Bool :=
  (jsTrim t).isEmpty

/-! ## The block data model (`src/types/note.ts`) -/

/-- `TextBlock` from `src/types/note.ts`: the atomic unit of content. -/
structure TextBlock where
  id : String
  content : Text
  isEmpty : Bool
deriving DecidableEq, Inhabited, Repr

/-- `createTextBlock` from `src/types/note.ts`.  In the source the id is
`block-${Date.now()}-${Math.random()...}`, a nondeterministic fresh string;
the embedding takes the generated id as an explicit parameter. -/
def createTextBlock (id : String) (content : Text) : TextBlock :=
  { id := id, content := content, isEmpty := isBlankB content }

/-- `blocksToMarkdown` from `src/types/note.ts`:
`blocks.map((b) => b.content).join("\n\n")`. -/
def joinSep : List Text → Text
  | [] => []
  | c :: cs =>
    match cs with
    | [] => c
    | _ :: _ => c ++ '\n' :: '\n' :: joinSep cs

/-- Serialization of a document: join the block contents with blank lines. -/
def blocksToMarkdown (blocks : List TextBlock) : Text :=
  joinSep (blocks.map (·.content))

/-- One scanning step of `markdown.split(/\n\n+/)`: `acc` holds the current
fragment reversed; a run of two or more newlines ends the fragment and is
consumed entirely.  The fuel is always at least the input length plus one, so
the `0` case is never reached on the stated inputs. -/
def splitGo (fuel : Nat) (acc input : Text) : List Text :=
  match fuel with
  | 0 => [acc.reverse]
  | fuel + 1 =>
    match input with
    | [] => [acc.reverse]
    | c :: rest =>
      if c = '\n' ∧ rest.head? = some '\n' then
        acc.reverse :: splitGo fuel [] ((rest.drop 1).dropWhile (fun ch => ch = '\n'))
      else
        splitGo fuel (c :: acc) rest

/-- Model of `markdown.split(/\n\n+/)`. -/
def splitRuns (t : Text) : List Text :=
  splitGo (t.length + 1) [] t

/-- Whether a text contains a blank-line run in the sense of the parser
regex: an occurrence of two consecutive newline characters. -/
def hasDoubleNewline : Text → Bool
  | [] => false
  | c :: rest => (decide (c = '\n' ∧ rest.head? = some '\n')) || hasDoubleNewline rest

/-- `parts.map((content) => createTextBlock(content))` with the fresh ids made
explicit: the fragment at position `i` receives id `ids i`. -/
def mapWithIds (ids : Nat → String) : Nat → List Text → List TextBlock
  | _, [] => []
  | i, c :: cs => createTextBlock (ids i) c :: mapWithIds ids (i + 1) cs

/-- `parseMarkdownToBlocks` from `src/types/note.ts`: blank input gives one
empty block; otherwise split on blank-line runs, drop blank fragments, and
fall back to one empty block if nothing survives. -/
def parseMarkdownToBlocks (ids : Nat → String) (markdown : Text) : List TextBlock :=
  if isBlankB markdown then [createTextBlock (ids 0) []]
  else
    let parts := (splitRuns markdown).filter (fun p => !(isBlankB p))
    if parts = [] then [createTextBlock (ids 0) []]
    else mapWithIds ids 0 parts

/-! ## AI response and review types (`src/types/ai.ts`, `src/types/note.ts`) -/

/-- The discriminator of `AIResponse.type`. -/
inductive AIKind where
  | append
  | review
  | review_immediate
  | inquire
deriving DecidableEq, Repr

/-- `AIResponse` from `src/types/ai.ts`.  The optional debug fields
(`thought`, `chat_id`, `changedCharCount`) are never read by the store and
are omitted. -/
structure AIResponse where
  type : AIKind
  content : Text
  userInput : Text
deriving DecidableEq, Repr

/-- `ReviewState` from `src/types/note.ts` (the pending suggestion):
`blockId` is `none` for a full-document review. -/
structure ReviewState where
  blockId : Option String
  response : AIResponse
  originalContent : Text
deriving DecidableEq, Repr

/-- A chat role (`"user" | "ai"`). -/
inductive ChatRole where
  | user
  | ai
deriving DecidableEq, Repr

/-- `ChatMessage` from `src/types/note.ts`. -/
structure ChatMessage where
  id : String
  role : ChatRole
  content : Text
  timestamp : Nat
deriving DecidableEq, Repr

/-! ## The diff engine -/

/-- Length of a longest common subsequence, with explicit fuel; the fuel is
always instantiated with at least the sum of the two lengths, which keeps the
recursion structural while computing the exact LCS length. -/
def lcsLen (fuel : Nat) : Text → Text → Nat :=
  match fuel with
  | 0 => fun _ _ => 0
  | fuel + 1 => fun xs ys =>
    match xs, ys with
    | [], _ => 0
    | _, [] => 0
    | x :: xs, y :: ys =>
      if x = y then lcsLen fuel xs ys + 1
      else max (lcsLen fuel xs (y :: ys)) (lcsLen fuel (x :: xs) ys)

/-- The changed-character count of the store: `Diff.diffChars(pre, post)`
(the jsdiff package) produces a minimal insert/delete edit script, and the
store sums the lengths of the added and removed parts.  The total size of a
minimal insert/delete script between two sequences is
`|pre| + |post| - 2 * |LCS(pre, post)|`, which is what this computes. -/
def changedChars (pre post : Text) : Nat :=
  pre.length + post.length - 2 * lcsLen (pre.length + post.length) pre post

/-- `DIFF_THRESHOLD` from `src/store/noteStore.ts`. -/
def DIFF_THRESHOLD : Nat := 10

/-- `MAX_HISTORY_STEPS` from `src/store/noteStore.ts`. -/
def MAX_HISTORY_STEPS : Nat := 5

/-! ## The store state (`src/store/noteStore.ts`) -/

/-- The state portion of the Zustand note store.  The computed values
(`getFullContent`, ...) are modelled as standalone functions. -/
structure NoteState where
  blocks : List TextBlock
  currentNotebookId : Option String
  isSyncing : Bool
  lastSyncedAt : Option Nat
  syncError : Option String
  history : List (List TextBlock)
  future : List (List TextBlock)
  lastSavedSnapshot : Option (List TextBlock)
  reviewState : Option ReviewState
  isClarifying : Bool
  chatHistory : List ChatMessage
  isProcessing : Bool
  focusedBlockId : Option String
  forceEditBlockId : Option String
  forceCursorPosition : Option Nat
  ghostTexts : List (String × Text)
deriving DecidableEq, Repr

/-- The initial store state (`initialState` in `src/store/noteStore.ts`); the
id of the single empty starting block is passed explicitly. -/
def initialState (id0 : String) : NoteState where
  blocks := [createTextBlock id0 []]
  currentNotebookId := none
  isSyncing := false
  lastSyncedAt := none
  syncError := none
  history := []
  future := []
  lastSavedSnapshot := none
  reviewState := none
  isClarifying := false
  chatHistory := []
  isProcessing := false
  focusedBlockId := none
  forceEditBlockId := none
  forceCursorPosition := none
  ghostTexts := []

/-- `getFullContent`: serialize the current blocks. -/
def getFullContent (s : NoteState) : Text :=
  blocksToMarkdown s.blocks

/-- The last `n` elements of a list (`Array.prototype.slice(-n)` for an array
of length at least `n`). -/
def takeLast (n : Nat) (l : List α) : List α :=
  l.drop (l.length - n)

/-- Model of `Array.prototype.findIndex` (with `none` for `-1`). -/
def findIndex (p : TextBlock → Bool) : List TextBlock → Option Nat
  | [] => none
  | b :: rest => if p b then some 0 else (findIndex p rest).map (· + 1)

/-- The block-content replacement map shared by `updateBlock`,
`confirmReview` and the inline branches of `handleGlobalAIResponse`:
`blocks.map((block) => block.id === id ? { ...block, content, isEmpty } :
block)`. -/
def updBlocks (bs : List TextBlock) (id : String) (content : Text) : List TextBlock :=
  bs.map (fun b =>
    if b.id = id then { b with content := content, isEmpty := isBlankB content } else b)

/-! ## Store actions (`src/store/noteStore.ts`) -/

/-- `saveSnapshot`: no-op when the serialized blocks equal
`lastSavedSnapshot`; otherwise append the current blocks to `history`,
truncate to the most recent `MAX_HISTORY_STEPS` entries, clear `future` and
update the marker. -/
def saveSnapshot (s : NoteState) : NoteState :=
  if some s.blocks = s.lastSavedSnapshot then s
  else
    let newHistory := s.history ++ [s.blocks]
    { s with
      history :=
        if newHistory.length > MAX_HISTORY_STEPS then takeLast MAX_HISTORY_STEPS newHistory
        else newHistory
      future := []
      lastSavedSnapshot := some s.blocks }

/-- `undo`: no-op on empty history; otherwise pop the top of `history`,
restore it, and push the current blocks onto `future`. -/
def undo (s : NoteState) : NoteState :=
  match s.history.getLast? with
  | none => s
  | some previousState =>
    { s with
      blocks := previousState
      history := s.history.dropLast
      future := s.future ++ [s.blocks]
      lastSavedSnapshot := some previousState }

/-- `redo`: symmetric inverse of `undo` using `future`. -/
def redo (s : NoteState) : NoteState :=
  match s.future.getLast? with
  | none => s
  | some nextState =>
    { s with
      blocks := nextState
      history := s.history ++ [s.blocks]
      future := s.future.dropLast
      lastSavedSnapshot := some nextState }

/-- `addBlock`: snapshot, then append a fresh block. -/
def addBlock (newId : String) (content : Text) (s : NoteState) : NoteState :=
  let newBlock := createTextBlock newId content
  let s1 := saveSnapshot s
  { s1 with blocks := s1.blocks ++ [newBlock] }

/-- `updateBlock`: replace a block content in place (no snapshot). -/
def updateBlock (id : String) (content : Text) (s : NoteState) : NoteState :=
  { s with blocks := updBlocks s.blocks id content }

/-- `insertBlockAfter`: insert a fresh block right after the given id; no-op
when the id is absent (no snapshot). -/
def insertBlockAfter (newId : String) (afterId : String) (content : Text)
    (s : NoteState) : NoteState :=
  match findIndex (fun b => b.id == afterId) s.blocks with
  | none => s
  | some index =>
    { s with
      blocks :=
        s.blocks.take (index + 1) ++ [createTextBlock newId content]
          ++ s.blocks.drop (index + 1) }

/-- `deleteBlock`: remove every block with the given id (no snapshot, no
emptiness guard). -/
def deleteBlock (id : String) (s : NoteState) : NoteState :=
  { s with blocks := s.blocks.filter (fun b => !(b.id == id)) }

/-- `mergeWithPrevious`: `null` (and no state change) when the id is absent
or names the first block; otherwise snapshot, request focus on the previous
block, concatenate the two contents into the previous block, remove the
current block, and return the previous id with the cursor position at the old
boundary. -/
def mergeWithPrevious (id : String) (s : NoteState) :
    NoteState × Option (String × Nat) :=
  match findIndex (fun b => b.id == id) s.blocks with
  | none => (s, none)
  | some 0 => (s, none)
  | some (i + 1) =>
    let previousBlock := s.blocks.getD i default
    let currentBlock := s.blocks.getD (i + 1) default
    let cursorPosition := previousBlock.content.length
    let mergedContent := previousBlock.content ++ currentBlock.content
    let s1 := saveSnapshot s
    let s2 := { s1 with
      forceEditBlockId := some previousBlock.id
      forceCursorPosition := some cursorPosition }
    let newBlocks :=
      ((s2.blocks.set i
        { previousBlock with
          content := mergedContent
          isEmpty := isBlankB mergedContent })).eraseIdx (i + 1)
    ({ s2 with blocks := newBlocks }, some (previousBlock.id, cursorPosition))

/-- `setReviewState`. -/
def setReviewState (rs : Option ReviewState) (s : NoteState) : NoteState :=
  { s with reviewState := rs }

/-- `confirmReview`: no-op without a pending review; otherwise snapshot, then
either re-parse the whole document from the proposed text (`blockId = none`)
or replace the reviewed block content, clearing the review state. -/
def confirmReview (ids : Nat → String) (s : NoteState) : NoteState :=
  match s.reviewState with
  | none => s
  | some rs =>
    let s1 := saveSnapshot s
    match rs.blockId with
    | none =>
      { s1 with
        blocks := parseMarkdownToBlocks ids rs.response.content
        reviewState := none }
    | some bid =>
      { s1 with
        blocks := updBlocks s1.blocks bid rs.response.content
        reviewState := none }

/-- `rejectReview`: clear the review state, touching nothing else. -/
def rejectReview (s : NoteState) : NoteState :=
  { s with reviewState := none }

/-- `handleAppendContent`: append parsed blocks (no snapshot); no-op on empty
content. -/
def handleAppendContent (ids : Nat → String) (content : Text)
    (s : NoteState) : NoteState :=
  if content = [] then s
  else { s with blocks := s.blocks ++ parseMarkdownToBlocks ids content }

/-- `handleBlockAIResponse`: the single-block response router.  `review`
computes the changed-character count and applies the `DIFF_THRESHOLD` cut:
strictly above the threshold it stages a review, otherwise it applies the
rewrite immediately; `review_immediate` and `append` apply immediately; an
`inquire` response matches none of the branches and leaves the state
untouched.  Every applying branch snapshots first. -/
def handleBlockAIResponse (blockId : String) (response : AIResponse)
    (s : NoteState) : NoteState :=
  match s.blocks.find? (fun b => b.id == blockId) with
  | none => s
  | some currentBlock =>
    match response.type with
    | .review_immediate => updateBlock blockId response.content (saveSnapshot s)
    | .review =>
      let diffCount := changedChars currentBlock.content response.content
      if diffCount > DIFF_THRESHOLD then
        setReviewState
          (some { blockId := some blockId, response := response,
                  originalContent := currentBlock.content })
          (saveSnapshot s)
      else
        updateBlock blockId response.content (saveSnapshot s)
    | .append => updateBlock blockId response.content (saveSnapshot s)
    | .inquire => s

/-- `handleGlobalAIResponse`: the global response router.  `inquire`
unconditionally records a user turn and an assistant turn and raises the
clarifying flag.  Otherwise the clarifying dialog is closed first; with a
focused block the response is applied inline (append or replace, after a
snapshot); without one, `append` appends parsed blocks (no snapshot) and
`review` stages a whole-document suggestion (no snapshot, no diff check). -/
def handleGlobalAIResponse (now : Nat) (ids : Nat → String)
    (response : AIResponse) (s : NoteState) : NoteState :=
  let userMessage :=
    if response.userInput = [] then "(语音输入)".toList else response.userInput
  if response.type = .inquire then
    { s with
      chatHistory := s.chatHistory ++
        [ { id := "user-" ++ toString now, role := .user,
            content := userMessage, timestamp := now },
          { id := "ai-" ++ toString (now + 1), role := .ai,
            content := response.content, timestamp := now + 1 } ]
      isClarifying := true }
  else
    let s1 := if s.isClarifying then
        { s with isClarifying := false, chatHistory := [] }
      else s
    match s.focusedBlockId with
    | some fid =>
      match s.blocks.find? (fun b => b.id == fid) with
      | none => s1
      | some targetBlock =>
        let s2 := saveSnapshot s1
        if response.type = .append then
          let newContent :=
            if !(isBlankB targetBlock.content) then
              targetBlock.content ++ '\n' :: '\n' :: response.content
            else response.content
          { s2 with
            blocks := updBlocks s2.blocks fid newContent
            focusedBlockId := none }
        else if response.type = .review then
          { s2 with
            blocks := updBlocks s2.blocks fid response.content
            focusedBlockId := none }
        else s2
    | none =>
      if response.type = .append ∧ response.content ≠ [] then
        { s1 with blocks := s1.blocks ++ parseMarkdownToBlocks ids response.content }
      else if response.type = .review then
        { s1 with
          reviewState := some
            { blockId := none, response := response,
              originalContent := blocksToMarkdown s1.blocks } }
      else s1

/-- The inline `inquire` fallback of `src/components/EditorBlock.tsx`
(the voice-recorder callback, lines handling `response.type === "inquire"`):
when the content is non-empty and longer than 10 characters it is appended
onto the block (joined with a blank line when the current content is
non-blank, replacing it outright when blank) through `onEdit`, which the page
wires to `updateBlock`; otherwise nothing happens. -/
def editorBlockInquire (block : TextBlock) (content : Text)
    (s : NoteState) : NoteState :=
  if content ≠ [] ∧ content.length > 10 then
    let newContent :=
      if !(isBlankB block.content) then
        block.content ++ '\n' :: '\n' :: content
      else content
    updateBlock block.id newContent s
  else s

/-! ## Generic mutating actions (for the undo/redo round trip)

`addBlock`, `mergeWithPrevious` and the applying branches of
`handleBlockAIResponse` all follow the same pattern: call `saveSnapshot`,
then replace `blocks` by a function of the current blocks.  `runAction`
abstracts that pattern over the block transformation. -/

/-- One mutating action in the store pattern: snapshot, then transform the
block sequence. -/
def runAction (f : List TextBlock → List TextBlock) (s : NoteState) : NoteState :=
  let s1 := saveSnapshot s
  { s1 with blocks := f s1.blocks }

/-- Run a sequence of mutating actions in order. -/
def runActions : List (List TextBlock → List TextBlock) → NoteState → NoteState
  | [], s => s
  | f :: fs, s => runActions fs (runAction f s)

/-- The block sequence after running the transformations in order. -/
def chainBlocks (fs : List (List TextBlock → List TextBlock))
    (b : List TextBlock) : List TextBlock :=
  fs.foldl (fun b f => f b) b

/-- Iterated `undo`. -/
def undoN : Nat → NoteState → NoteState
  | 0, s => s
  | n + 1, s => undoN n (undo s)

/-- Iterated `redo`. -/
def redoN : Nat → NoteState → NoteState
  | 0, s => s
  | n + 1, s => redoN n (redo s)

/-! ## Concrete states and data used in the statements below -/

/-- The store state reached by: snapshot, edit the block to `"b"`, snapshot,
undo, edit the block back to `"a"`.  At this point the block sequence equals
the single entry on the past stack, but `lastSavedSnapshot` records `"b"`. -/
def dupTraceState : NoteState :=
  updateBlock "b1" "a".toList
    (undo (saveSnapshot (updateBlock "b1" "b".toList
      (saveSnapshot ({ initialState "b0" with blocks := [⟨"b1", "a".toList, false⟩] })))))


/-- A store state with a single non-blank block that is currently focused,
so the response scope is that single block. -/
def focusedBlockState : NoteState :=
  { initialState "b0" with
      blocks := [⟨"b1", "hello".toList, false⟩]
      focusedBlockId := some "b1" }


/-- A one-block state whose block a small `review` targets. -/
def reviewSmallState : NoteState :=
  { initialState "b0" with blocks := [⟨"b1", "ab".toList, false⟩] }

/-- A `review` response identical to the target content (0 changed
characters, at most the threshold). -/
def reviewSmallResp : AIResponse := ⟨.review, "ab".toList, "u".toList⟩


/-- The merged previous block: the concatenated content with the emptiness
flag recomputed. -/
def mergedBlock (p c : TextBlock) : TextBlock :=
  { p with content := p.content ++ c.content, isEmpty := isBlankB (p.content ++ c.content) }


/-! ## Basic facts about `saveSnapshot` -/

@[simp] lemma saveSnapshot_blocks (s : NoteState) : (saveSnapshot s).blocks = s.blocks := by
  unfold saveSnapshot; split <;> rfl

@[simp] lemma saveSnapshot_reviewState (s : NoteState) :
    (saveSnapshot s).reviewState = s.reviewState := by
  unfold saveSnapshot; split <;> rfl

@[simp] lemma saveSnapshot_isClarifying (s : NoteState) :
    (saveSnapshot s).isClarifying = s.isClarifying := by
  unfold saveSnapshot; split <;> rfl

@[simp] lemma saveSnapshot_chatHistory (s : NoteState) :
    (saveSnapshot s).chatHistory = s.chatHistory := by
  unfold saveSnapshot; split <;> rfl

@[simp] lemma saveSnapshot_focusedBlockId (s : NoteState) :
    (saveSnapshot s).focusedBlockId = s.focusedBlockId := by
  unfold saveSnapshot; split <;> rfl

lemma takeLast_of_length_le (n : Nat) (l : List α) (h : l.length ≤ n) :
    takeLast n l = l := by
  unfold takeLast
  rw [Nat.sub_eq_zero_of_le h, List.drop_zero]

/-- The truncation branch of `saveSnapshot` written uniformly: the kept
history is always the most recent `MAX_HISTORY_STEPS` entries of the appended
list. -/
lemma saveSnapshot_history (s : NoteState) (h : some s.blocks ≠ s.lastSavedSnapshot) :
    (saveSnapshot s).history = takeLast MAX_HISTORY_STEPS (s.history ++ [s.blocks]) := by
  unfold saveSnapshot
  rw [if_neg h]
  by_cases hlen : (s.history ++ [s.blocks]).length > MAX_HISTORY_STEPS
  · simp only [hlen, if_pos]
  · simp only [hlen, if_neg, if_false]
    rw [takeLast_of_length_le _ _ (Nat.le_of_not_lt hlen)]

lemma saveSnapshot_of_eq (s : NoteState) (h : some s.blocks = s.lastSavedSnapshot) :
    saveSnapshot s = s := by
  unfold saveSnapshot; rw [if_pos h]

lemma saveSnapshot_of_ne_future (s : NoteState) (h : some s.blocks ≠ s.lastSavedSnapshot) :
    (saveSnapshot s).future = [] := by
  unfold saveSnapshot; rw [if_neg h]

lemma saveSnapshot_of_ne_marker (s : NoteState) (h : some s.blocks ≠ s.lastSavedSnapshot) :
    (saveSnapshot s).lastSavedSnapshot = some s.blocks := by
  unfold saveSnapshot; rw [if_neg h]

lemma saveSnapshot_idem (s : NoteState) :
    saveSnapshot (saveSnapshot s) = saveSnapshot s := by
  by_cases h : some s.blocks = s.lastSavedSnapshot
  · rw [saveSnapshot_of_eq s h, saveSnapshot_of_eq s h]
  · apply saveSnapshot_of_eq
    rw [saveSnapshot_blocks, saveSnapshot_of_ne_marker s h]

/-! ## Claim C10 — confirm/reject with no pending suggestion -/

/-- C10.  With `reviewState = none`, both `confirmReview` and `rejectReview`
return the state entirely unchanged (every field), and neither fails. -/
theorem claim10_confirm_reject_noop (ids : Nat → String) (s : NoteState)
    (h : s.reviewState = none) :
    confirmReview ids s = s ∧ rejectReview s = s := by
  constructor
  · unfold confirmReview
    rw [h]
  · unfold rejectReview
    cases s
    simp_all

theorem claim10_witness :
    (initialState "b0").reviewState = none ∧
      (confirmReview (fun _ => "n") (initialState "b0") = initialState "b0" ∧
        rejectReview (initialState "b0") = initialState "b0") :=
  ⟨rfl, claim10_confirm_reject_noop (fun _ => "n") (initialState "b0") rfl⟩

/-! ## Claim C3 — the never-empty invariant -/

/-- C3 counterexample.  Deleting the last remaining block leaves the document
with zero blocks: `deleteBlock` has no emptiness guard, so the claimed
invariant (`delete` of the last block is a no-op or auto-replaces, keeping at
least one block) fails. -/
theorem claim3_counterexample :
    ((deleteBlock "b1"
        { initialState "b0" with blocks := [⟨"b1", "x".toList, false⟩] }).blocks).length
      = 0 := by
  decide

lemma length_mapWithIds (ids : Nat → String) (i : Nat) (cs : List Text) :
    (mapWithIds ids i cs).length = cs.length := by
  induction cs generalizing i with
  | nil => rfl
  | cons c cs ih => simp [mapWithIds, ih]

lemma parseMarkdownToBlocks_length_pos (ids : Nat → String) (md : Text) :
    1 ≤ (parseMarkdownToBlocks ids md).length := by
  unfold parseMarkdownToBlocks
  split
  · simp
  · dsimp only
    split
    · simp
    · rename_i hparts
      rw [length_mapWithIds]
      have := List.length_pos.mpr hparts
      omega

/-- C3 amended.  `deleteBlock` removes the matching blocks unconditionally,
so deleting the last remaining block empties the document; the at-least-one-
block shape is guaranteed only by the parser (and the initial state), not by
`deleteBlock`. -/
theorem claim3_amended (s : NoteState) (b : TextBlock) (h : s.blocks = [b]) :
    (deleteBlock b.id s).blocks = [] ∧
      (∀ (ids : Nat → String) (md : Text), 1 ≤ (parseMarkdownToBlocks ids md).length) ∧
      (∀ id0 : String, (initialState id0).blocks.length = 1) := by
  refine ⟨?_, fun ids md => parseMarkdownToBlocks_length_pos ids md, fun _ => rfl⟩
  simp [deleteBlock, h]

theorem claim3_witness :
    ({ initialState "b0" with blocks := [⟨"b1", "x".toList, false⟩] } :
        NoteState).blocks = [(⟨"b1", "x".toList, false⟩ : TextBlock)] ∧
      ((deleteBlock (⟨"b1", "x".toList, false⟩ : TextBlock).id
          { initialState "b0" with blocks := [⟨"b1", "x".toList, false⟩] }).blocks = [] ∧
        (∀ (ids : Nat → String) (md : Text), 1 ≤ (parseMarkdownToBlocks ids md).length) ∧
        (∀ id0 : String, (initialState id0).blocks.length = 1)) :=
  ⟨rfl, claim3_amended _ _ rfl⟩

/-! ## Claim C5 — history push idempotence and bound -/

/-- C5 counterexample.  At `dupTraceState` the current blocks are
structurally identical to the top of the past stack, yet `saveSnapshot`
pushes them again, leaving two identical history entries: the push guard
compares against `lastSavedSnapshot`, not against the top of the past stack,
so the claimed idempotence fails on this reachable state. -/
theorem claim5_counterexample :
    dupTraceState.blocks = [⟨"b1", "a".toList, false⟩] ∧
      dupTraceState.history = [[⟨"b1", "a".toList, false⟩]] ∧
      (saveSnapshot dupTraceState).history
        = [[⟨"b1", "a".toList, false⟩], [⟨"b1", "a".toList, false⟩]] := by
  decide

/-- C5 amended.  The no-op guard of `saveSnapshot` compares the blocks with
`lastSavedSnapshot` (the serialization of the most recently saved or restored
sequence), not with the top of the past stack.  An effective push appends the
current blocks, truncates the past stack to the most recent
`MAX_HISTORY_STEPS = 5` entries (silently dropping the oldest) and clears the
future stack; an immediately repeated push is then a no-op, so two identical
pushes in a row still yield exactly one new entry. -/
theorem claim5_push_guard (s : NoteState) (h : some s.blocks ≠ s.lastSavedSnapshot) :
    (saveSnapshot s).history = takeLast MAX_HISTORY_STEPS (s.history ++ [s.blocks]) ∧
      (saveSnapshot s).future = [] ∧
      (saveSnapshot s).lastSavedSnapshot = some s.blocks ∧
      saveSnapshot (saveSnapshot s) = saveSnapshot s :=
  ⟨saveSnapshot_history s h, saveSnapshot_of_ne_future s h,
    saveSnapshot_of_ne_marker s h, saveSnapshot_idem s⟩

theorem claim5_witness :
    some (initialState "b0").blocks ≠ (initialState "b0").lastSavedSnapshot ∧
      ((saveSnapshot (initialState "b0")).history
          = takeLast MAX_HISTORY_STEPS
              ((initialState "b0").history ++ [(initialState "b0").blocks]) ∧
        (saveSnapshot (initialState "b0")).future = [] ∧
        (saveSnapshot (initialState "b0")).lastSavedSnapshot
          = some (initialState "b0").blocks ∧
        saveSnapshot (saveSnapshot (initialState "b0"))
          = saveSnapshot (initialState "b0")) :=
  ⟨by decide, claim5_push_guard (initialState "b0") (by decide)⟩

lemma getLast?_takeLast_concat (n : Nat) (hn : 0 < n) (l : List α) (b : α) :
    (takeLast n (l ++ [b])).getLast? = some b := by
  unfold takeLast
  have hk : (l ++ [b]).length - n ≤ l.length := by
    simp only [List.length_append, List.length_singleton]
    omega
  revert hk
  generalize (l ++ [b]).length - n = k
  intro hk
  induction l generalizing k with
  | nil =>
    have hz : k = 0 := Nat.le_zero.mp hk
    subst hz
    rfl
  | cons x l ih =>
    cases k with
    | zero => exact List.getLast?_concat _
    | succ k =>
      have hstep : List.drop (k + 1) ((x :: l) ++ [b]) = List.drop k (l ++ [b]) := rfl
      rw [hstep]
      exact ih k (Nat.le_of_succ_le_succ hk)

/-! ## Claim C4 — snapshot-before-every-mutation -/

/-- C4 counterexample.  `updateBlock` mutates the block sequence without any
history push (the history stays empty and a subsequent `undo` cannot restore
the pre-mutation state), and so does the whole-document append path of
`handleGlobalAIResponse`; hence a Document mutation can happen without a
preceding snapshot push. -/
theorem claim4_counterexample :
    (updateBlock "b1" "xyz".toList
        { initialState "b0" with blocks := [⟨"b1", "a".toList, false⟩] }).blocks
      ≠ ({ initialState "b0" with
            blocks := [⟨"b1", "a".toList, false⟩] } : NoteState).blocks ∧
    (updateBlock "b1" "xyz".toList
        { initialState "b0" with blocks := [⟨"b1", "a".toList, false⟩] }).history = [] ∧
    undo (updateBlock "b1" "xyz".toList
        { initialState "b0" with blocks := [⟨"b1", "a".toList, false⟩] })
      = updateBlock "b1" "xyz".toList
        { initialState "b0" with blocks := [⟨"b1", "a".toList, false⟩] } ∧
    (handleGlobalAIResponse 0 (fun _ => "n") ⟨.append, "new".toList, "u".toList⟩
        { initialState "b0" with blocks := [⟨"b1", "a".toList, false⟩] }).blocks
      ≠ ({ initialState "b0" with
            blocks := [⟨"b1", "a".toList, false⟩] } : NoteState).blocks ∧
    (handleGlobalAIResponse 0 (fun _ => "n") ⟨.append, "new".toList, "u".toList⟩
        { initialState "b0" with blocks := [⟨"b1", "a".toList, false⟩] }).history = [] := by
  decide

/-- C4 amended.  A pre-mutation History snapshot is pushed by `addBlock`
(the pushed entry is the block sequence from before the mutation), but the
manual `updateBlock`, `insertBlockAfter` and `deleteBlock` operations mutate
the document while leaving the history stacks untouched, so `undo()` after
them does not restore the pre-mutation state. -/
theorem claim4_snapshot_coverage (s : NoteState) (id newId : String) (c : Text)
    (h : some s.blocks ≠ s.lastSavedSnapshot) :
    (updateBlock id c s).history = s.history ∧
      (updateBlock id c s).future = s.future ∧
      (updateBlock id c s).blocks = updBlocks s.blocks id c ∧
      (insertBlockAfter newId id c s).history = s.history ∧
      (deleteBlock id s).history = s.history ∧
      (addBlock newId c s).history.getLast? = some s.blocks ∧
      (addBlock newId c s).blocks = s.blocks ++ [createTextBlock newId c] := by
  refine ⟨rfl, rfl, rfl, ?_, rfl, ?_, ?_⟩
  · unfold insertBlockAfter
    cases findIndex (fun b => b.id == id) s.blocks <;> rfl
  · show (saveSnapshot s).history.getLast? = some s.blocks
    rw [saveSnapshot_history s h]
    exact getLast?_takeLast_concat MAX_HISTORY_STEPS (by decide) _ _
  · show (saveSnapshot s).blocks ++ _ = _
    rw [saveSnapshot_blocks]

theorem claim4_witness :
    some (initialState "b0").blocks ≠ (initialState "b0").lastSavedSnapshot ∧
      ((updateBlock "b1" "c".toList (initialState "b0")).history
          = (initialState "b0").history ∧
        (updateBlock "b1" "c".toList (initialState "b0")).future
          = (initialState "b0").future ∧
        (updateBlock "b1" "c".toList (initialState "b0")).blocks
          = updBlocks (initialState "b0").blocks "b1" "c".toList ∧
        (insertBlockAfter "b9" "b1" "c".toList (initialState "b0")).history
          = (initialState "b0").history ∧
        (deleteBlock "b1" (initialState "b0")).history = (initialState "b0").history ∧
        (addBlock "b9" "c".toList (initialState "b0")).history.getLast?
          = some (initialState "b0").blocks ∧
        (addBlock "b9" "c".toList (initialState "b0")).blocks
          = (initialState "b0").blocks ++ [createTextBlock "b9" "c".toList]) :=
  ⟨by decide, claim4_snapshot_coverage (initialState "b0") "b1" "b9" "c".toList (by decide)⟩

/-! ## Claim C2 — whole-document review and the threshold -/

/-- C2 counterexample.  A whole-document `review` whose changed-character
count is below the threshold (here 1 ≤ 10) is nevertheless staged as a
pending suggestion — the document is not rewritten and no History snapshot is
pushed; the Router never computes the diff on this path. -/
theorem claim2_counterexample :
    changedChars
        (blocksToMarkdown ({ initialState "b0" with
          blocks := [⟨"b1", "a".toList, false⟩] } : NoteState).blocks)
        "ab".toList ≤ DIFF_THRESHOLD ∧
      (handleGlobalAIResponse 0 (fun _ => "n") ⟨.review, "ab".toList, "u".toList⟩
          { initialState "b0" with blocks := [⟨"b1", "a".toList, false⟩] }).blocks
        = ({ initialState "b0" with
              blocks := [⟨"b1", "a".toList, false⟩] } : NoteState).blocks ∧
      (handleGlobalAIResponse 0 (fun _ => "n") ⟨.review, "ab".toList, "u".toList⟩
          { initialState "b0" with blocks := [⟨"b1", "a".toList, false⟩] }).reviewState
        ≠ none ∧
      (handleGlobalAIResponse 0 (fun _ => "n") ⟨.review, "ab".toList, "u".toList⟩
          { initialState "b0" with blocks := [⟨"b1", "a".toList, false⟩] }).history
        = [] := by
  decide

/-- C2 amended.  On whole-document scope (no focused block) the Router stages
every `review` response as a pending suggestion with `blockId = none` and
`originalContent` the full serialized document, without computing
`changedChars`, without applying the threshold, and without pushing a History
snapshot; the document is rewritten (re-parsed from the proposed text) only
on `confirmReview`. -/
theorem claim2_global_review_always_stages (now : Nat) (ids : Nat → String)
    (s : NoteState) (response : AIResponse)
    (hf : s.focusedBlockId = none) (ht : response.type = .review) :
    (handleGlobalAIResponse now ids response s).blocks = s.blocks ∧
      (handleGlobalAIResponse now ids response s).history = s.history ∧
      (handleGlobalAIResponse now ids response s).future = s.future ∧
      (handleGlobalAIResponse now ids response s).reviewState
        = some { blockId := none, response := response,
                 originalContent := blocksToMarkdown s.blocks } ∧
      (confirmReview ids (handleGlobalAIResponse now ids response s)).blocks
        = parseMarkdownToBlocks ids response.content ∧
      (confirmReview ids (handleGlobalAIResponse now ids response s)).reviewState
        = none := by
  have hni : ¬(response.type = AIKind.inquire) := by rw [ht]; intro hc; cases hc
  have hna : ¬(response.type = AIKind.append ∧ response.content ≠ []) := by
    rw [ht]; intro hc; cases hc.1
  unfold handleGlobalAIResponse
  dsimp only
  rw [if_neg hni, hf]
  simp only [if_neg hna, if_pos ht]
  split <;> exact ⟨rfl, rfl, rfl, rfl, rfl, rfl⟩

theorem claim2_witness :
    ({ initialState "b0" with blocks := [⟨"b1", "a".toList, false⟩] } :
        NoteState).focusedBlockId = none ∧
      (⟨.review, "ab".toList, "u".toList⟩ : AIResponse).type = .review ∧
      ((handleGlobalAIResponse 3 (fun _ => "n") ⟨.review, "ab".toList, "u".toList⟩
          { initialState "b0" with blocks := [⟨"b1", "a".toList, false⟩] }).blocks
        = ({ initialState "b0" with
              blocks := [⟨"b1", "a".toList, false⟩] } : NoteState).blocks ∧
      (handleGlobalAIResponse 3 (fun _ => "n") ⟨.review, "ab".toList, "u".toList⟩
          { initialState "b0" with blocks := [⟨"b1", "a".toList, false⟩] }).history
        = ({ initialState "b0" with
              blocks := [⟨"b1", "a".toList, false⟩] } : NoteState).history ∧
      (handleGlobalAIResponse 3 (fun _ => "n") ⟨.review, "ab".toList, "u".toList⟩
          { initialState "b0" with blocks := [⟨"b1", "a".toList, false⟩] }).future
        = ({ initialState "b0" with
              blocks := [⟨"b1", "a".toList, false⟩] } : NoteState).future ∧
      (handleGlobalAIResponse 3 (fun _ => "n") ⟨.review, "ab".toList, "u".toList⟩
          { initialState "b0" with blocks := [⟨"b1", "a".toList, false⟩] }).reviewState
        = some { blockId := none, response := ⟨.review, "ab".toList, "u".toList⟩,
                 originalContent := blocksToMarkdown
                   ({ initialState "b0" with
                      blocks := [⟨"b1", "a".toList, false⟩] } : NoteState).blocks } ∧
      (confirmReview (fun _ => "n")
          (handleGlobalAIResponse 3 (fun _ => "n") ⟨.review, "ab".toList, "u".toList⟩
            { initialState "b0" with blocks := [⟨"b1", "a".toList, false⟩] })).blocks
        = parseMarkdownToBlocks (fun _ => "n")
            (⟨.review, "ab".toList, "u".toList⟩ : AIResponse).content ∧
      (confirmReview (fun _ => "n")
          (handleGlobalAIResponse 3 (fun _ => "n") ⟨.review, "ab".toList, "u".toList⟩
            { initialState "b0" with blocks := [⟨"b1", "a".toList, false⟩] })).reviewState
        = none) :=
  ⟨rfl, rfl, claim2_global_review_always_stages 3 (fun _ => "n") _ _ rfl rfl⟩

/-! ## Claim C8 — inline `inquire` handling -/

/-- C8 counterexample.  An `inquire` response routed through the store while
a block with non-blank content is focused (single-block scope) does enter the
clarifying state: the store checks `inquire` before resolving the scope, so
the claimed never-clarify behavior fails for the Router; the Conversation log
gains two turns and no content is appended to the focused block. -/
theorem claim8_counterexample :
    focusedBlockState.focusedBlockId = some "b1" ∧
      isBlankB (⟨"b1", "hello".toList, false⟩ : TextBlock).content = false ∧
      (⟨.inquire, "what exactly should I change".toList, "fix".toList⟩ :
          AIResponse).content.length > 10 ∧
      (handleGlobalAIResponse 0 (fun _ => "n")
          ⟨.inquire, "what exactly should I change".toList, "fix".toList⟩
          focusedBlockState).isClarifying = true ∧
      (handleGlobalAIResponse 0 (fun _ => "n")
          ⟨.inquire, "what exactly should I change".toList, "fix".toList⟩
          focusedBlockState).blocks = [⟨"b1", "hello".toList, false⟩] ∧
      (handleGlobalAIResponse 0 (fun _ => "n")
          ⟨.inquire, "what exactly should I change".toList, "fix".toList⟩
          focusedBlockState).chatHistory.length = 2 := by
  decide

/-- C8 amended.  The never-clarify fallback lives in the inline EditorBlock
handler (not in the store, whose global handler enters clarifying on every
`inquire`): the inline handler never touches the clarifying flag, the
Conversation log or the history; when the content is non-empty and strictly
longer than the floor of 10 characters it is appended onto the target block
(joined with a blank line when the current content is non-blank, replacing it
outright otherwise), and otherwise the whole state is left unchanged. -/
theorem claim8_inline_inquire (block : TextBlock) (content : Text) (s : NoteState) :
    (editorBlockInquire block content s).isClarifying = s.isClarifying ∧
      (editorBlockInquire block content s).chatHistory = s.chatHistory ∧
      (editorBlockInquire block content s).history = s.history ∧
      (editorBlockInquire block content s).blocks
        = (if content ≠ [] ∧ content.length > 10 then
            updBlocks s.blocks block.id
              (if !(isBlankB block.content) then
                block.content ++ '\n' :: '\n' :: content
              else content)
          else s.blocks) := by
  unfold editorBlockInquire
  split <;> exact ⟨rfl, rfl, rfl, rfl⟩

/-! ## Claim C1 — single-block review threshold routing -/

/-- C1.  A `review` response for a focused single block is routed by the
changed-character count against the threshold 10, boundary inclusive: at most
10, the block content is replaced at once (no suggestion is created, the
review state is untouched) after the History snapshot call; strictly above
10, the document is left unchanged, the snapshot call still happens first,
and a pending suggestion `{blockId, response, originalContent}` is staged;
then `rejectReview` clears the suggestion leaving the blocks unchanged, and
`confirmReview` replaces the block content with the proposal and clears the
suggestion. -/
theorem claim1_review_threshold (ids : Nat → String) (blockId : String)
    (response : AIResponse) (s : NoteState) (cb : TextBlock)
    (hfind : s.blocks.find? (fun b => b.id == blockId) = some cb)
    (ht : response.type = .review) :
    (handleBlockAIResponse blockId response s).history = (saveSnapshot s).history ∧
      (handleBlockAIResponse blockId response s).future = (saveSnapshot s).future ∧
      (handleBlockAIResponse blockId response s).blocks
        = (if changedChars cb.content response.content > DIFF_THRESHOLD then s.blocks
           else updBlocks s.blocks blockId response.content) ∧
      (handleBlockAIResponse blockId response s).reviewState
        = (if changedChars cb.content response.content > DIFF_THRESHOLD then
            some { blockId := some blockId, response := response,
                   originalContent := cb.content }
           else s.reviewState) ∧
      (rejectReview (handleBlockAIResponse blockId response s)).blocks
        = (handleBlockAIResponse blockId response s).blocks ∧
      (rejectReview (handleBlockAIResponse blockId response s)).reviewState = none ∧
      (if changedChars cb.content response.content > DIFF_THRESHOLD then
        (confirmReview ids (handleBlockAIResponse blockId response s)).blocks
            = updBlocks s.blocks blockId response.content ∧
          (confirmReview ids (handleBlockAIResponse blockId response s)).reviewState
            = none
       else True) := by
  unfold handleBlockAIResponse
  rw [hfind, ht]
  dsimp only
  split
  · refine ⟨rfl, rfl, ?_, rfl, rfl, rfl, ?_, rfl⟩
    · simp [setReviewState]
    · simp [confirmReview, setReviewState]
  · refine ⟨rfl, rfl, ?_, ?_, rfl, rfl, trivial⟩
    · simp [updateBlock]
    · simp [updateBlock]

theorem claim1_witness :
    reviewSmallState.blocks.find? (fun b => b.id == "b1")
        = some ⟨"b1", "ab".toList, false⟩ ∧
      reviewSmallResp.type = .review ∧
      ((handleBlockAIResponse "b1" reviewSmallResp reviewSmallState).history
          = (saveSnapshot reviewSmallState).history ∧
        (handleBlockAIResponse "b1" reviewSmallResp reviewSmallState).future
          = (saveSnapshot reviewSmallState).future ∧
        (handleBlockAIResponse "b1" reviewSmallResp reviewSmallState).blocks
          = (if changedChars (⟨"b1", "ab".toList, false⟩ : TextBlock).content
                reviewSmallResp.content > DIFF_THRESHOLD then reviewSmallState.blocks
             else updBlocks reviewSmallState.blocks "b1" reviewSmallResp.content) ∧
        (handleBlockAIResponse "b1" reviewSmallResp reviewSmallState).reviewState
          = (if changedChars (⟨"b1", "ab".toList, false⟩ : TextBlock).content
                reviewSmallResp.content > DIFF_THRESHOLD then
              some { blockId := some "b1", response := reviewSmallResp,
                     originalContent := (⟨"b1", "ab".toList, false⟩ : TextBlock).content }
             else reviewSmallState.reviewState) ∧
        (rejectReview (handleBlockAIResponse "b1" reviewSmallResp reviewSmallState)).blocks
          = (handleBlockAIResponse "b1" reviewSmallResp reviewSmallState).blocks ∧
        (rejectReview
            (handleBlockAIResponse "b1" reviewSmallResp reviewSmallState)).reviewState
          = none ∧
        (if changedChars (⟨"b1", "ab".toList, false⟩ : TextBlock).content
            reviewSmallResp.content > DIFF_THRESHOLD then
          (confirmReview (fun _ => "n")
              (handleBlockAIResponse "b1" reviewSmallResp reviewSmallState)).blocks
              = updBlocks reviewSmallState.blocks "b1" reviewSmallResp.content ∧
            (confirmReview (fun _ => "n")
                (handleBlockAIResponse "b1" reviewSmallResp reviewSmallState)).reviewState
              = none
         else True)) :=
  ⟨by decide, rfl,
    claim1_review_threshold (fun _ => "n") "b1" reviewSmallResp reviewSmallState
      ⟨"b1", "ab".toList, false⟩ (by decide) rfl⟩

/-! ## Claim C9 — merge with previous block -/

lemma findIndex_append_of_all_false (p : TextBlock → Bool) (pre l : List TextBlock)
    (h : ∀ a ∈ pre, p a = false) :
    findIndex p (pre ++ l) = (findIndex p l).map (· + pre.length) := by
  induction pre with
  | nil => rcases hfl : findIndex p l with _ | n <;> simp [hfl]
  | cons x pre ih =>
    have hx : p x = false := h x (List.mem_cons_self x pre)
    have hrest := ih (fun a ha => h a (List.mem_cons_of_mem x ha))
    rcases hfl : findIndex p l with _ | n <;>
      simp [findIndex, hx, hrest, hfl, Nat.add_assoc]

lemma getD_append_cons (pre : List α) (a : α) (l : List α) (d : α) :
    (pre ++ a :: l).getD pre.length d = a := by
  induction pre with
  | nil => rfl
  | cons x pre ih => simpa [List.getD] using ih

lemma set_append_cons (pre : List α) (a b : α) (l : List α) :
    (pre ++ a :: l).set pre.length b = pre ++ b :: l := by
  induction pre with
  | nil => rfl
  | cons x pre ih => simp [List.set, ih]

lemma eraseIdx_append_cons (pre : List α) (a : α) (l : List α) :
    (pre ++ a :: l).eraseIdx pre.length = pre ++ l := by
  induction pre with
  | nil => rfl
  | cons x pre ih => simp [List.eraseIdx, ih]

/-- C9.  `mergeWithPrevious` on the first block returns `null` and leaves the
whole state unchanged (a defined no-op); on any later block it merges the
contents into the previous block (recomputing its emptiness flag), removes
the current block, and returns the previous block id together with the length
of the previous content before concatenation as the cursor position. -/
theorem claim9_mergeWithPrevious (s : NoteState) (id : String) :
    (∀ c rest, s.blocks = c :: rest → c.id = id → mergeWithPrevious id s = (s, none)) ∧
      (∀ pre p c post,
        s.blocks = pre ++ p :: c :: post → c.id = id →
        (∀ b ∈ pre, b.id ≠ id) → p.id ≠ id →
        (mergeWithPrevious id s).2 = some (p.id, p.content.length) ∧
          (mergeWithPrevious id s).1.blocks = pre ++ mergedBlock p c :: post) := by
  constructor
  · intro c rest hb hid
    unfold mergeWithPrevious
    rw [hb]
    have hhead : findIndex (fun b => b.id == id) (c :: rest) = some 0 := by
      simp [findIndex, hid]
    rw [hhead]
  · intro pre p c post hb hcid hpre hpid
    have hfi : findIndex (fun b => b.id == id) s.blocks = some (pre.length + 1) := by
      rw [hb]
      have hassoc : pre ++ p :: c :: post = (pre ++ [p]) ++ c :: post := by simp
      rw [hassoc,
        findIndex_append_of_all_false _ (pre ++ [p]) (c :: post) ?hall]
      case hall =>
        intro a ha
        rcases List.mem_append.mp ha with hmem | hmem
        · simpa using hpre a hmem
        · have : a = p := by simpa using hmem
          subst this
          simpa using hpid
      have hc : findIndex (fun b => b.id == id) (c :: post) = some 0 := by
        simp [findIndex, hcid]
      rw [hc]
      simp [Nat.add_comm]
    have hprev : s.blocks.getD pre.length default = p := by
      rw [hb]; exact getD_append_cons pre p (c :: post) default
    have hcurr : s.blocks.getD (pre.length + 1) default = c := by
      rw [hb]
      have hassoc : pre ++ p :: c :: post = (pre ++ [p]) ++ c :: post := by simp
      have hlen : pre.length + 1 = (pre ++ [p]).length := by simp
      rw [hassoc, hlen]
      exact getD_append_cons (pre ++ [p]) c post default
    unfold mergeWithPrevious
    rw [hfi]
    dsimp only
    rw [hprev, hcurr]
    refine ⟨rfl, ?_⟩
    show ((saveSnapshot s).blocks.set pre.length (mergedBlock p c)).eraseIdx (pre.length + 1)
        = _
    rw [saveSnapshot_blocks, hb, set_append_cons]
    have hassoc : pre ++ mergedBlock p c :: c :: post
        = (pre ++ [mergedBlock p c]) ++ c :: post := by simp
    have hlen : pre.length + 1 = (pre ++ [mergedBlock p c]).length := by simp
    rw [hassoc, hlen, eraseIdx_append_cons]
    simp

theorem claim9_witness :
    mergeWithPrevious "b1"
        { initialState "b0" with
            blocks := [⟨"b1", "a".toList, false⟩, ⟨"b2", "b".toList, false⟩] }
      = ({ initialState "b0" with
            blocks := [⟨"b1", "a".toList, false⟩, ⟨"b2", "b".toList, false⟩] }, none) ∧
      (mergeWithPrevious "b2"
          { initialState "b0" with
              blocks := [⟨"b1", "a".toList, false⟩, ⟨"b2", "b".toList, false⟩] }).2
        = some ("b1", 1) ∧
      (mergeWithPrevious "b2"
          { initialState "b0" with
              blocks := [⟨"b1", "a".toList, false⟩, ⟨"b2", "b".toList, false⟩] }).1.blocks
        = [⟨"b1", "ab".toList, false⟩] := by
  have h1 := (claim9_mergeWithPrevious
    { initialState "b0" with
        blocks := [⟨"b1", "a".toList, false⟩, ⟨"b2", "b".toList, false⟩] } "b1").1
    ⟨"b1", "a".toList, false⟩ [⟨"b2", "b".toList, false⟩] rfl rfl
  have h2 := (claim9_mergeWithPrevious
    { initialState "b0" with
        blocks := [⟨"b1", "a".toList, false⟩, ⟨"b2", "b".toList, false⟩] } "b2").2
    [] ⟨"b1", "a".toList, false⟩ ⟨"b2", "b".toList, false⟩ []
    rfl rfl (by intro b hb; cases hb) (by decide)
  refine ⟨h1, h2.1.trans (by decide), h2.2.trans (by decide)⟩

/-! ## Claim C6 — undo/redo round trip

The proof splits into: an unfolding of `undo`/`redo` on a known stack top, a
characterization of iterated `undo` (`redo`) that empties the corresponding
stack, and a forward invariant for running mutating actions (within the
history bound no truncation happens, the first pushed snapshot stays at the
bottom of the past stack, and the future stack stays empty). -/

lemma undo_eq_of_getLast? (s : NoteState) (x : List TextBlock)
    (h : s.history.getLast? = some x) :
    undo s = { s with
      blocks := x
      history := s.history.dropLast
      future := s.future ++ [s.blocks]
      lastSavedSnapshot := some x } := by
  unfold undo
  rw [h]

lemma redo_eq_of_getLast? (s : NoteState) (x : List TextBlock)
    (h : s.future.getLast? = some x) :
    redo s = { s with
      blocks := x
      history := s.history ++ [s.blocks]
      future := s.future.dropLast
      lastSavedSnapshot := some x } := by
  unfold redo
  rw [h]

lemma undo_of_history_nil (s : NoteState) (h : s.history = []) : undo s = s := by
  unfold undo
  rw [show s.history.getLast? = none by rw [h]; rfl]

lemma redo_of_future_nil (s : NoteState) (h : s.future = []) : redo s = s := by
  unfold redo
  rw [show s.future.getLast? = none by rw [h]; rfl]

lemma undoN_of_history_nil (n : Nat) (s : NoteState) (h : s.history = []) :
    undoN n s = s := by
  induction n with
  | zero => rfl
  | succ n ih => show undoN n (undo s) = s; rw [undo_of_history_nil s h, ih]

lemma redoN_of_future_nil (n : Nat) (s : NoteState) (h : s.future = []) :
    redoN n s = s := by
  induction n with
  | zero => rfl
  | succ n ih => show redoN n (redo s) = s; rw [redo_of_future_nil s h, ih]

lemma undoN_add (m n : Nat) (s : NoteState) :
    undoN (m + n) s = undoN n (undoN m s) := by
  induction m generalizing s with
  | zero => rw [Nat.zero_add]; rfl
  | succ m ihm =>
    rw [Nat.succ_add]
    show undoN (m + n) (undo s) = undoN n (undoN (m + 1) s)
    rw [ihm (undo s)]
    rfl

lemma redoN_add (m n : Nat) (s : NoteState) :
    redoN (m + n) s = redoN n (redoN m s) := by
  induction m generalizing s with
  | zero => rw [Nat.zero_add]; rfl
  | succ m ihm =>
    rw [Nat.succ_add]
    show redoN (m + n) (redo s) = redoN n (redoN (m + 1) s)
    rw [ihm (redo s)]
    rfl

/-- Iterated `undo` through an entire past stack `(x :: R').reverse` (so `x`
is the bottom, the end of `R'` the top): it restores the bottom snapshot,
empties the past stack, and piles the current blocks and the popped entries
except the bottom onto the future stack. -/
lemma undoN_spec : ∀ (R' : List (List TextBlock)) (x : List TextBlock) (s : NoteState),
    s.history = (x :: R').reverse →
    (undoN (R'.length + 1) s).blocks = (x :: R').getLastD s.blocks ∧
      (undoN (R'.length + 1) s).history = [] ∧
      (undoN (R'.length + 1) s).future = s.future ++ s.blocks :: (x :: R').dropLast := by
  intro R'
  induction R' with
  | nil =>
    intro x s h
    have hl : s.history.getLast? = some x := by rw [h]; rfl
    have hu := undo_eq_of_getLast? s x hl
    show (undoN 0 (undo s)).blocks = _ ∧ (undoN 0 (undo s)).history = _ ∧
      (undoN 0 (undo s)).future = _
    simp only [undoN, hu, h]
    exact ⟨rfl, rfl, rfl⟩
  | cons y R'' ih =>
    intro x s h
    have hrev : s.history = (y :: R'').reverse ++ [x] := by
      rw [h, List.reverse_cons]
    have hl : s.history.getLast? = some x := by
      rw [hrev, List.getLast?_concat]
    have hu := undo_eq_of_getLast? s x hl
    have hhist : (undo s).history = (y :: R'').reverse := by
      rw [hu]
      show s.history.dropLast = _
      rw [hrev, List.dropLast_concat]
    obtain ⟨ib, ih2, if2⟩ := ih y (undo s) hhist
    have hpeel : undoN ((y :: R'').length + 1) s = undoN (R''.length + 1) (undo s) := rfl
    refine ⟨?_, ?_, ?_⟩
    · rw [hpeel, ib, hu]
      show (y :: R'').getLastD x = (x :: y :: R'').getLastD s.blocks
      conv_rhs => rw [List.getLastD_cons]
    · rw [hpeel, ih2]
    · rw [hpeel, if2, hu]
      show (s.future ++ [s.blocks]) ++ x :: (y :: R'').dropLast
        = s.future ++ s.blocks :: (x :: y :: R'').dropLast
      simp

/-- Iterated `redo` through an entire future stack, symmetric to
`undoN_spec`. -/
lemma redoN_spec : ∀ (Q' : List (List TextBlock)) (y : List TextBlock) (s : NoteState),
    s.future = (y :: Q').reverse →
    (redoN (Q'.length + 1) s).blocks = (y :: Q').getLastD s.blocks ∧
      (redoN (Q'.length + 1) s).future = [] ∧
      (redoN (Q'.length + 1) s).history = s.history ++ s.blocks :: (y :: Q').dropLast := by
  intro Q'
  induction Q' with
  | nil =>
    intro y s h
    have hl : s.future.getLast? = some y := by rw [h]; rfl
    have hu := redo_eq_of_getLast? s y hl
    show (redoN 0 (redo s)).blocks = _ ∧ (redoN 0 (redo s)).future = _ ∧
      (redoN 0 (redo s)).history = _
    simp only [redoN, hu, h]
    exact ⟨rfl, rfl, rfl⟩
  | cons z Q'' ih =>
    intro y s h
    have hrev : s.future = (z :: Q'').reverse ++ [y] := by
      rw [h, List.reverse_cons]
    have hl : s.future.getLast? = some y := by
      rw [hrev, List.getLast?_concat]
    have hu := redo_eq_of_getLast? s y hl
    have hfut : (redo s).future = (z :: Q'').reverse := by
      rw [hu]
      show s.future.dropLast = _
      rw [hrev, List.dropLast_concat]
    obtain ⟨ib, if2, ih2⟩ := ih z (redo s) hfut
    have hpeel : redoN ((z :: Q'').length + 1) s = redoN (Q''.length + 1) (redo s) := rfl
    refine ⟨?_, ?_, ?_⟩
    · rw [hpeel, ib, hu]
      show (z :: Q'').getLastD y = (y :: z :: Q'').getLastD s.blocks
      conv_rhs => rw [List.getLastD_cons]
    · rw [hpeel, if2]
    · rw [hpeel, ih2, hu]
      show (s.history ++ [s.blocks]) ++ y :: (z :: Q'').dropLast
        = s.history ++ s.blocks :: (y :: z :: Q'').dropLast
      simp

lemma head?_append_of_ne_nil (l l' : List α) (h : l ≠ []) :
    (l ++ l').head? = l.head? := by
  cases l with
  | nil => exact absurd rfl h
  | cons a t => rfl

/-- Forward invariant for a run of mutating actions: starting from a state
with empty future and a non-empty past stack whose size leaves room for the
remaining actions, the future stays empty, the blocks follow the action
chain, the bottom of the past stack is preserved, and the past stack grows by
at most one entry per action (so the bound 5 is never exceeded and no
truncation ever drops the bottom). -/
lemma runActions_inv :
    ∀ (fs : List (List TextBlock → List TextBlock)) (s : NoteState),
    s.future = [] → s.history ≠ [] →
    s.history.length + fs.length ≤ MAX_HISTORY_STEPS →
    (runActions fs s).future = [] ∧
      (runActions fs s).blocks = chainBlocks fs s.blocks ∧
      (runActions fs s).history.head? = s.history.head? ∧
      (runActions fs s).history ≠ [] ∧
      (runActions fs s).history.length ≤ s.history.length + fs.length := by
  intro fs
  induction fs with
  | nil =>
    intro s hf hh hlen
    exact ⟨hf, rfl, rfl, hh, by simp [runActions]⟩
  | cons f fs ih =>
    intro s hf hh hlen
    show (runActions fs (runAction f s)).future = [] ∧
      (runActions fs (runAction f s)).blocks = chainBlocks fs (f s.blocks) ∧
      (runActions fs (runAction f s)).history.head? = s.history.head? ∧
      (runActions fs (runAction f s)).history ≠ [] ∧
      (runActions fs (runAction f s)).history.length
        ≤ s.history.length + (f :: fs).length
    by_cases hg : some s.blocks = s.lastSavedSnapshot
    · have h1 : runAction f s = { s with blocks := f s.blocks } := by
        unfold runAction
        rw [saveSnapshot_of_eq s hg]
      rw [h1]
      have hnext := ih { s with blocks := f s.blocks } hf hh
        (by
          show s.history.length + fs.length ≤ MAX_HISTORY_STEPS
          simp only [MAX_HISTORY_STEPS, List.length_cons] at hlen ⊢
          omega)
      exact ⟨hnext.1, hnext.2.1, hnext.2.2.1, hnext.2.2.2.1,
        le_trans hnext.2.2.2.2 (by
          show s.history.length + fs.length ≤ s.history.length + (f :: fs).length
          simp only [List.length_cons]
          omega)⟩
    · have htrunc : ¬ ((s.history ++ [s.blocks]).length > MAX_HISTORY_STEPS) := by
        simp only [MAX_HISTORY_STEPS, List.length_append, List.length_singleton, List.length_nil,
          List.length_cons] at hlen ⊢
        omega
      have h1 : runAction f s = { s with
          blocks := f s.blocks
          history := s.history ++ [s.blocks]
          future := []
          lastSavedSnapshot := some s.blocks } := by
        unfold runAction saveSnapshot
        rw [if_neg hg]
        dsimp only
        rw [if_neg htrunc]
      rw [h1]
      have hnext := ih { s with
          blocks := f s.blocks
          history := s.history ++ [s.blocks]
          future := []
          lastSavedSnapshot := some s.blocks }
        rfl (by simp)
        (by
          show (s.history ++ [s.blocks]).length + fs.length ≤ MAX_HISTORY_STEPS
          simp only [MAX_HISTORY_STEPS, List.length_append, List.length_singleton, List.length_nil,
            List.length_cons] at hlen ⊢
          omega)
      refine ⟨hnext.1, hnext.2.1, ?_, hnext.2.2.2.1, ?_⟩
      · exact hnext.2.2.1.trans (head?_append_of_ne_nil _ _ hh)
      · refine le_trans hnext.2.2.2.2 ?_
        show (s.history ++ [s.blocks]).length + fs.length
          ≤ s.history.length + (f :: fs).length
        simp only [List.length_append, List.length_singleton, List.length_nil, List.length_cons]
        omega

/-- The run characterization from an initial-shaped state (empty stacks,
initial `lastSavedSnapshot` marker): the first action always pushes the
initial blocks, which stay at the bottom of the past stack. -/
lemma runActions_initial (f : List TextBlock → List TextBlock)
    (fs : List (List TextBlock → List TextBlock)) (s : NoteState)
    (hh : s.history = []) (hf : s.future = []) (hl : s.lastSavedSnapshot = none)
    (hk : fs.length + 1 ≤ MAX_HISTORY_STEPS) :
    (runActions (f :: fs) s).future = [] ∧
      (runActions (f :: fs) s).blocks = chainBlocks (f :: fs) s.blocks ∧
      (runActions (f :: fs) s).history.head? = some s.blocks ∧
      (runActions (f :: fs) s).history ≠ [] ∧
      (runActions (f :: fs) s).history.length ≤ fs.length + 1 := by
  have hg : some s.blocks ≠ s.lastSavedSnapshot := by rw [hl]; simp
  have htrunc : ¬ ((s.history ++ [s.blocks]).length > MAX_HISTORY_STEPS) := by
    rw [hh]
    simp [MAX_HISTORY_STEPS]
  have h1 : runAction f s = { s with
      blocks := f s.blocks
      history := s.history ++ [s.blocks]
      future := []
      lastSavedSnapshot := some s.blocks } := by
    unfold runAction saveSnapshot
    rw [if_neg hg]
    dsimp only
    rw [if_neg htrunc]
  show (runActions fs (runAction f s)).future = [] ∧
    (runActions fs (runAction f s)).blocks = chainBlocks fs (f s.blocks) ∧
    (runActions fs (runAction f s)).history.head? = some s.blocks ∧
    (runActions fs (runAction f s)).history ≠ [] ∧
    (runActions fs (runAction f s)).history.length ≤ fs.length + 1
  rw [h1]
  have hnext := runActions_inv fs { s with
      blocks := f s.blocks
      history := s.history ++ [s.blocks]
      future := []
      lastSavedSnapshot := some s.blocks }
    rfl (by simp)
    (by
      show (s.history ++ [s.blocks]).length + fs.length ≤ MAX_HISTORY_STEPS
      rw [hh]
      simp only [MAX_HISTORY_STEPS, List.nil_append, List.length_singleton, List.length_nil] at hk ⊢
      omega)
  refine ⟨hnext.1, hnext.2.1, ?_, hnext.2.2.2.1, ?_⟩
  · refine hnext.2.2.1.trans ?_
    show (s.history ++ [s.blocks]).head? = some s.blocks
    rw [hh]
    rfl
  · refine le_trans hnext.2.2.2.2 ?_
    show (s.history ++ [s.blocks]).length + fs.length ≤ fs.length + 1
    rw [hh]
    simp [Nat.add_comm]

/-- C6 counterexample.  A mutating Document action that pushes no snapshot —
`updateBlock`, the store's manual content edit — applied once (a sequence of
length `K = 1 ≤ 5`) from the initial state changes the block sequence, yet
`undo` applied once does not restore the original blocks: the history stack
is still empty, so `undo` is a no-op and the claimed round trip fails for
this mutating action. -/
theorem claim6_counterexample :
    (1 : Nat) ≤ MAX_HISTORY_STEPS ∧
      (updateBlock "b0" "x".toList (initialState "b0")).blocks
        ≠ (initialState "b0").blocks ∧
      (updateBlock "b0" "x".toList (initialState "b0")).history = [] ∧
      (undoN 1 (updateBlock "b0" "x".toList (initialState "b0"))).blocks
        ≠ (initialState "b0").blocks := by
  decide

/-- C6 amended.  From an initially-shaped state (empty undo/redo stacks,
initial snapshot marker), running at most `MAX_HISTORY_STEPS = 5` mutating
actions that each follow the snapshot-then-mutate pattern of the store
(`saveSnapshot` first, then transform the blocks — the pattern of `addBlock`,
`mergeWithPrevious` and the applying branches of `handleBlockAIResponse`),
`undo` applied as many times restores exactly the original block sequence,
and `redo` applied as many times afterwards restores the final block
sequence; mutating actions that push no snapshot are excluded, and the
counterexample shows the round trip fails for them. -/
theorem claim6_undo_redo_roundtrip (fs : List (List TextBlock → List TextBlock))
    (s0 : NoteState) (hh : s0.history = []) (hf : s0.future = [])
    (hl : s0.lastSavedSnapshot = none) (hk : fs.length ≤ MAX_HISTORY_STEPS) :
    (undoN fs.length (runActions fs s0)).blocks = s0.blocks ∧
      (redoN fs.length (undoN fs.length (runActions fs s0))).blocks
        = (runActions fs s0).blocks := by
  cases fs with
  | nil => exact ⟨rfl, rfl⟩
  | cons f fs' =>
    obtain ⟨hfut, hblocks, hhead, hne, hlen⟩ :=
      runActions_initial f fs' s0 hh hf hl (by simpa using hk)
    obtain ⟨x, R', hR⟩ : ∃ x R', (runActions (f :: fs') s0).history.reverse = x :: R' := by
      cases hrev : (runActions (f :: fs') s0).history.reverse with
      | nil =>
        exact absurd (by simpa using congrArg List.reverse hrev) hne
      | cons a l => exact ⟨a, l, rfl⟩
    have hHr : (runActions (f :: fs') s0).history = (x :: R').reverse := by
      rw [← hR, List.reverse_reverse]
    have hRlen : R'.length + 1 = (runActions (f :: fs') s0).history.length := by
      have hc := congrArg List.length hR
      simpa [List.length_reverse] using hc.symm
    have hrK : R'.length + 1 ≤ (f :: fs').length := by
      rw [hRlen]
      simpa using hlen
    have hsplit : undoN (f :: fs').length (runActions (f :: fs') s0)
        = undoN ((f :: fs').length - (R'.length + 1))
            (undoN (R'.length + 1) (runActions (f :: fs') s0)) := by
      rw [← undoN_add]
      congr 1
      omega
    obtain ⟨ub, uh, uf⟩ := undoN_spec R' x (runActions (f :: fs') s0) hHr
    have hufinal : undoN ((f :: fs').length - (R'.length + 1))
        (undoN (R'.length + 1) (runActions (f :: fs') s0))
        = undoN (R'.length + 1) (runActions (f :: fs') s0) :=
      undoN_of_history_nil _ _ uh
    have hbottom : (x :: R').getLast? = some s0.blocks := by
      rw [← hR, List.getLast?_reverse]
      exact hhead
    have hblocks0 : (undoN (R'.length + 1) (runActions (f :: fs') s0)).blocks
        = s0.blocks := by
      rw [ub, List.getLastD_eq_getLast?, hbottom]
      rfl
    refine ⟨by rw [hsplit, hufinal, hblocks0], ?_⟩
    rw [hsplit, hufinal]
    have hfut2 : (undoN (R'.length + 1) (runActions (f :: fs') s0)).future
        = (runActions (f :: fs') s0).blocks :: (x :: R').dropLast := by
      rw [uf, hfut]
      simp
    obtain ⟨y, Q', hQ⟩ : ∃ y Q',
        (undoN (R'.length + 1) (runActions (f :: fs') s0)).future.reverse = y :: Q' := by
      rw [hfut2]
      cases hrev : ((runActions (f :: fs') s0).blocks :: (x :: R').dropLast).reverse with
      | nil =>
        have hc := congrArg List.length hrev
        simp at hc
      | cons a l => exact ⟨a, l, rfl⟩
    have hQr : (undoN (R'.length + 1) (runActions (f :: fs') s0)).future
        = (y :: Q').reverse := by
      rw [← hQ, List.reverse_reverse]
    have hQlen : Q'.length + 1 = R'.length + 1 := by
      have hc := congrArg List.length hQ
      rw [hfut2] at hc
      simpa [List.length_reverse] using hc.symm
    obtain ⟨rb, rf, rh⟩ := redoN_spec Q' y _ hQr
    have hsplit2 : redoN (f :: fs').length (undoN (R'.length + 1) (runActions (f :: fs') s0))
        = redoN ((f :: fs').length - (Q'.length + 1))
            (redoN (Q'.length + 1) (undoN (R'.length + 1) (runActions (f :: fs') s0))) := by
      rw [← redoN_add]
      congr 1
      omega
    have htop : (y :: Q').getLast? = some (runActions (f :: fs') s0).blocks := by
      rw [← hQ, List.getLast?_reverse, hfut2]
      rfl
    rw [hsplit2, redoN_of_future_nil _ _ rf, rb, List.getLastD_eq_getLast?, htop]
    rfl

theorem claim6_witness :
    (initialState "b0").history = [] ∧
      (initialState "b0").future = [] ∧
      (initialState "b0").lastSavedSnapshot = none ∧
      ([fun bs => bs ++ [(⟨"b2", "x".toList, false⟩ : TextBlock)],
        fun bs => updBlocks bs "b2" "y".toList] :
          List (List TextBlock → List TextBlock)).length ≤ MAX_HISTORY_STEPS ∧
      ((undoN ([fun bs => bs ++ [(⟨"b2", "x".toList, false⟩ : TextBlock)],
          fun bs => updBlocks bs "b2" "y".toList] :
            List (List TextBlock → List TextBlock)).length
        (runActions [fun bs => bs ++ [(⟨"b2", "x".toList, false⟩ : TextBlock)],
          fun bs => updBlocks bs "b2" "y".toList] (initialState "b0"))).blocks
          = (initialState "b0").blocks ∧
        (redoN ([fun bs => bs ++ [(⟨"b2", "x".toList, false⟩ : TextBlock)],
            fun bs => updBlocks bs "b2" "y".toList] :
              List (List TextBlock → List TextBlock)).length
          (undoN ([fun bs => bs ++ [(⟨"b2", "x".toList, false⟩ : TextBlock)],
              fun bs => updBlocks bs "b2" "y".toList] :
                List (List TextBlock → List TextBlock)).length
            (runActions [fun bs => bs ++ [(⟨"b2", "x".toList, false⟩ : TextBlock)],
              fun bs => updBlocks bs "b2" "y".toList] (initialState "b0")))).blocks
          = (runActions [fun bs => bs ++ [(⟨"b2", "x".toList, false⟩ : TextBlock)],
              fun bs => updBlocks bs "b2" "y".toList] (initialState "b0")).blocks) :=
  ⟨rfl, rfl, rfl, by decide,
    claim6_undo_redo_roundtrip
      [fun bs => bs ++ [(⟨"b2", "x".toList, false⟩ : TextBlock)],
        fun bs => updBlocks bs "b2" "y".toList]
      (initialState "b0") rfl rfl rfl (by decide)⟩

/-! ## Claim C7 — parse/serialize round trip -/

lemma splitGo_nil_input (fuel : Nat) (acc : Text) : splitGo fuel acc [] = [acc.reverse] := by
  cases fuel <;> rfl

lemma splitGo_fuel_congr :
    ∀ (f g : Nat) (acc t : Text), t.length < f → t.length < g →
    splitGo f acc t = splitGo g acc t := by
  intro f
  induction f with
  | zero => intro g acc t hf; exact absurd hf (Nat.not_lt_zero _)
  | succ f ihf =>
    intro g acc t hf hg
    cases g with
    | zero => exact absurd hg (Nat.not_lt_zero _)
    | succ g =>
      cases t with
      | nil => rfl
      | cons c rest =>
        show (if c = '\n' ∧ rest.head? = some '\n' then _ else _)
          = (if c = '\n' ∧ rest.head? = some '\n' then _ else _)
        by_cases hcond : c = '\n' ∧ rest.head? = some '\n'
        · rw [if_pos hcond, if_pos hcond]
          have hx : ((rest.drop 1).dropWhile (fun ch => ch = '\n')).length
              ≤ (rest.drop 1).length :=
            (List.dropWhile_sublist (fun ch => ch = '\n')).length_le
          have hxd : (rest.drop 1).length ≤ rest.length := by
            rw [List.length_drop]; omega
          have hr : rest.length + 1 = (c :: rest).length := rfl
          rw [ihf g [] ((rest.drop 1).dropWhile (fun ch => ch = '\n'))
            (by simp only [List.length_cons] at hf; omega)
            (by simp only [List.length_cons] at hg; omega)]
        · rw [if_neg hcond, if_neg hcond]
          exact ihf g (c :: acc) rest
            (by simp only [List.length_cons] at hf; omega)
            (by simp only [List.length_cons] at hg; omega)

/-- Scanning a segment that contains no blank-line run and does not end in a
newline just accumulates it: the splitter passes over it without emitting a
fragment boundary. -/
lemma splitGo_segment :
    ∀ (c : Text) (fuel : Nat) (acc rest : Text),
    hasDoubleNewline c = false → c.getLast? ≠ some '\n' →
    (c ++ rest).length < fuel →
    splitGo fuel acc (c ++ rest) = splitGo (fuel - c.length) (c.reverse ++ acc) rest := by
  intro c
  induction c with
  | nil => intro fuel acc rest _ _ _; simp
  | cons ch c ihc =>
    intro fuel acc rest hdn hlast hlen
    cases fuel with
    | zero => exact absurd hlen (Nat.not_lt_zero _)
    | succ fuel =>
      show (if ch = '\n' ∧ (c ++ rest).head? = some '\n' then _ else _) = _
      have hcond : ¬(ch = '\n' ∧ (c ++ rest).head? = some '\n') := by
        rintro ⟨hch, hh⟩
        subst hch
        cases c with
        | nil => exact hlast rfl
        | cons d c' =>
          have hd : d = '\n' := by simpa using hh
          subst hd
          simp [hasDoubleNewline] at hdn
      rw [if_neg hcond]
      have hdn' : hasDoubleNewline c = false := by
        have h2 : (decide (ch = '\n' ∧ c.head? = some '\n') || hasDoubleNewline c)
            = false := hdn
        exact (Bool.or_eq_false_iff.mp h2).2
      have hlast' : c.getLast? ≠ some '\n' := by
        cases c with
        | nil => simp
        | cons d c' =>
          intro hcontra
          apply hlast
          rw [List.getLast?_cons_cons]
          exact hcontra
      have hrec := ihc fuel (ch :: acc) rest hdn' hlast'
        (by simp only [List.cons_append, List.length_cons] at hlen; omega)
      show splitGo fuel (ch :: acc) (c ++ rest)
        = splitGo (fuel + 1 - (ch :: c).length) ((ch :: c).reverse ++ acc) rest
      have harith : fuel + 1 - (ch :: c).length = fuel - c.length := by
        simp only [List.length_cons]
        omega
      have hlist : (ch :: c).reverse ++ acc = c.reverse ++ (ch :: acc) := by simp
      rw [hrec, harith, hlist]

lemma splitGo_double_newline (fuel : Nat) (acc T : Text) :
    splitGo (fuel + 1) acc ('\n' :: '\n' :: T)
      = acc.reverse :: splitGo fuel [] (T.dropWhile (fun ch => ch = '\n')) := by
  simp [splitGo]

lemma head?_joinSep_cons (c : Text) (cs : List Text) (hc : c ≠ []) :
    (joinSep (c :: cs)).head? = c.head? := by
  cases cs with
  | nil => rfl
  | cons d cs =>
    show (c ++ '\n' :: '\n' :: joinSep (d :: cs)).head? = c.head?
    exact head?_append_of_ne_nil c _ hc

lemma isEmpty_iff_eq_nil (l : List α) : l.isEmpty = true ↔ l = [] := by
  cases l <;> simp [List.isEmpty]

lemma isBlankB_true_iff (t : Text) : isBlankB t = true ↔ ∀ x ∈ t, isJsWs x = true := by
  unfold isBlankB jsTrim
  rw [isEmpty_iff_eq_nil, List.reverse_eq_nil_iff, List.dropWhile_eq_nil_iff]
  constructor
  · intro h x hx
    have hd : ∀ y ∈ List.dropWhile isJsWs t, isJsWs y = true := by
      intro y hy
      exact h y (List.mem_reverse.mpr hy)
    have hsplit : List.takeWhile isJsWs t ++ List.dropWhile isJsWs t = t :=
      List.takeWhile_append_dropWhile isJsWs t
    rw [← hsplit] at hx
    rcases List.mem_append.mp hx with hmem | hmem
    · exact List.mem_takeWhile_imp hmem
    · exact hd x hmem
  · intro h x hx
    exact h x ((List.dropWhile_sublist isJsWs).subset (List.mem_reverse.mp hx))

lemma isBlankB_false_append (c r : Text) (h : isBlankB c = false) :
    isBlankB (c ++ r) = false := by
  by_contra hcontra
  rw [Bool.not_eq_false] at hcontra
  have hall := (isBlankB_true_iff _).mp hcontra
  have hc : isBlankB c = true :=
    (isBlankB_true_iff c).mpr (fun x hx => hall x (List.mem_append.mpr (Or.inl hx)))
  rw [hc] at h
  cases h

lemma splitRuns_joinSep :
    ∀ (cs : List Text), cs ≠ [] →
    (∀ c ∈ cs, hasDoubleNewline c = false ∧ c.head? ≠ some '\n' ∧
      c.getLast? ≠ some '\n' ∧ isBlankB c = false) →
    splitRuns (joinSep cs) = cs := by
  intro cs
  induction cs with
  | nil => intro h; exact absurd rfl h
  | cons c cs ih =>
    intro _ hall
    obtain ⟨hdn, hhead, hlast, hblank⟩ := hall c (List.mem_cons_self c cs)
    cases cs with
    | nil =>
      show splitGo (c.length + 1) [] c = [c]
      have hseg := splitGo_segment c (c.length + 1) [] [] hdn hlast (by simp)
      rw [show c ++ ([] : Text) = c from by simp] at hseg
      rw [hseg, splitGo_nil_input]
      simp
    | cons d cs' =>
      have hd_all := fun x hx => hall x (List.mem_cons_of_mem c hx)
      obtain ⟨hdn_d, hhead_d, hlast_d, hblank_d⟩ := hall d (by simp)
      have hdne : d ≠ [] := by
        intro hnil
        rw [hnil] at hblank_d
        cases hblank_d
      show splitGo ((c ++ '\n' :: '\n' :: joinSep (d :: cs')).length + 1) []
          (c ++ '\n' :: '\n' :: joinSep (d :: cs')) = c :: d :: cs'
      have hseg := splitGo_segment c ((c ++ '\n' :: '\n' :: joinSep (d :: cs')).length + 1)
        [] ('\n' :: '\n' :: joinSep (d :: cs')) hdn hlast (by simp)
      have harith : (c ++ '\n' :: '\n' :: joinSep (d :: cs')).length + 1 - c.length
          = (joinSep (d :: cs')).length + 3 := by
        simp only [List.length_append, List.length_cons]
        omega
      rw [hseg, harith]
      rw [show (joinSep (d :: cs')).length + 3 = ((joinSep (d :: cs')).length + 2) + 1
        from rfl]
      rw [splitGo_double_newline ((joinSep (d :: cs')).length + 2) (c.reverse ++ [])
        (joinSep (d :: cs'))]
      obtain ⟨d0, drest, hd0⟩ : ∃ d0 drest, d = d0 :: drest := by
        cases d with
        | nil => exact absurd rfl hdne
        | cons d0 drest => exact ⟨d0, drest, rfl⟩
      have hThead : (joinSep (d :: cs')).head? = some d0 := by
        rw [head?_joinSep_cons d cs' hdne, hd0]
        rfl
      have hd0n : ¬(d0 = '\n') := by
        intro hcn
        apply hhead_d
        rw [hd0, hcn]
        rfl
      have hdropT : (joinSep (d :: cs')).dropWhile (fun ch => ch = '\n')
          = joinSep (d :: cs') := by
        cases hTc : joinSep (d :: cs') with
        | nil => rfl
        | cons t0 ts =>
          have ht0 : t0 = d0 := by
            rw [hTc] at hThead
            simpa using hThead
          rw [List.dropWhile_cons]
          simp [ht0, hd0n]
      rw [hdropT]
      rw [splitGo_fuel_congr ((joinSep (d :: cs')).length + 2)
        ((joinSep (d :: cs')).length + 1) [] (joinSep (d :: cs')) (by omega) (by omega)]
      have hih : splitRuns (joinSep (d :: cs')) = d :: cs' := ih (by simp) hd_all
      rw [show splitGo ((joinSep (d :: cs')).length + 1) [] (joinSep (d :: cs'))
          = splitRuns (joinSep (d :: cs')) from rfl, hih]
      simp

lemma map_content_mapWithIds (ids : Nat → String) :
    ∀ (i : Nat) (cs : List Text), (mapWithIds ids i cs).map (·.content) = cs := by
  intro i cs
  induction cs generalizing i with
  | nil => rfl
  | cons c cs ihc => simp [mapWithIds, createTextBlock, ihc]

/-- C7 counterexample.  A document of two blocks whose contents (`"a"` and
the empty text) contain no blank-line run does not round-trip: serialization
gives `"a\n\n"`, whose parse drops the blank fragment and returns a single
block, so the block count is not preserved. -/
theorem claim7_counterexample :
    hasDoubleNewline "a".toList = false ∧
      hasDoubleNewline ([] : Text) = false ∧
      ([(⟨"b1", "a".toList, false⟩ : TextBlock), ⟨"b2", [], true⟩] :
        List TextBlock).length = 2 ∧
      (parseMarkdownToBlocks (fun _ => "n")
        (blocksToMarkdown [⟨"b1", "a".toList, false⟩, ⟨"b2", [], true⟩])).length = 1 := by
  decide

/-- C7 amended.  The round trip `parse(serialize(blocks))` preserves the
block count and the block contents provided every block content not only
contains no blank-line run (two consecutive newlines) but is also non-blank
(its trim is non-empty) and neither starts nor ends with a newline character;
blank blocks are dropped by the parse and boundary newlines merge into the
separators, so those extra conditions are necessary. -/
theorem claim7_roundtrip (ids : Nat → String) (blocks : List TextBlock)
    (hne : blocks ≠ [])
    (hall : ∀ b ∈ blocks, hasDoubleNewline b.content = false ∧
      b.content.head? ≠ some '\n' ∧ b.content.getLast? ≠ some '\n' ∧
      isBlankB b.content = false) :
    (parseMarkdownToBlocks ids (blocksToMarkdown blocks)).length = blocks.length ∧
      (parseMarkdownToBlocks ids (blocksToMarkdown blocks)).map (·.content)
        = blocks.map (·.content) := by
  have hcall : ∀ c ∈ blocks.map (·.content), hasDoubleNewline c = false ∧
      c.head? ≠ some '\n' ∧ c.getLast? ≠ some '\n' ∧ isBlankB c = false := by
    intro cc hcc
    obtain ⟨b, hb, rfl⟩ := List.mem_map.mp hcc
    exact hall b hb
  have hcsne : blocks.map (·.content) ≠ [] := by
    intro hnil
    exact hne (List.map_eq_nil_iff.mp hnil)
  have hsplit := splitRuns_joinSep (blocks.map (·.content)) hcsne hcall
  obtain ⟨c0, cs0, hc0⟩ : ∃ c0 cs0, blocks.map (·.content) = c0 :: cs0 := by
    cases hmc : blocks.map (·.content) with
    | nil => exact absurd hmc hcsne
    | cons c0 cs0 => exact ⟨c0, cs0, rfl⟩
  have hmdblank : isBlankB (joinSep (blocks.map (·.content))) = false := by
    rw [hc0]
    have hb0 : isBlankB c0 = false :=
      (hcall c0 (by rw [hc0]; exact List.mem_cons_self c0 cs0)).2.2.2
    cases cs0 with
    | nil => exact hb0
    | cons d cs' => exact isBlankB_false_append c0 _ hb0
  have hfilter : (splitRuns (joinSep (blocks.map (·.content)))).filter
      (fun p => !(isBlankB p)) = blocks.map (·.content) := by
    rw [hsplit]
    refine List.filter_eq_self.mpr ?_
    intro a ha
    rw [(hcall a ha).2.2.2]
    rfl
  show (parseMarkdownToBlocks ids (joinSep (blocks.map (·.content)))).length = _ ∧
    (parseMarkdownToBlocks ids (joinSep (blocks.map (·.content)))).map (·.content) = _
  unfold parseMarkdownToBlocks
  rw [if_neg (by rw [hmdblank]; exact Bool.false_ne_true)]
  dsimp only
  rw [hfilter, if_neg (by rw [hc0]; exact (List.cons_ne_nil c0 cs0))]
  constructor
  · rw [length_mapWithIds, List.length_map]
  · rw [map_content_mapWithIds]

theorem claim7_witness :
    ([(⟨"b1", "hello".toList, false⟩ : TextBlock), ⟨"b2", "world".toList, false⟩] :
        List TextBlock) ≠ [] ∧
      (∀ b ∈ ([(⟨"b1", "hello".toList, false⟩ : TextBlock),
          ⟨"b2", "world".toList, false⟩] : List TextBlock),
        hasDoubleNewline b.content = false ∧ b.content.head? ≠ some '\n' ∧
          b.content.getLast? ≠ some '\n' ∧ isBlankB b.content = false) ∧
      ((parseMarkdownToBlocks (fun _ => "n")
          (blocksToMarkdown [⟨"b1", "hello".toList, false⟩,
            ⟨"b2", "world".toList, false⟩])).length
        = ([(⟨"b1", "hello".toList, false⟩ : TextBlock),
            ⟨"b2", "world".toList, false⟩] : List TextBlock).length ∧
        (parseMarkdownToBlocks (fun _ => "n")
          (blocksToMarkdown [⟨"b1", "hello".toList, false⟩,
            ⟨"b2", "world".toList, false⟩])).map (·.content)
        = ([(⟨"b1", "hello".toList, false⟩ : TextBlock),
            ⟨"b2", "world".toList, false⟩] : List TextBlock).map (·.content)) :=
  ⟨by decide, by decide,
    claim7_roundtrip (fun _ => "n")
      [⟨"b1", "hello".toList, false⟩, ⟨"b2", "world".toList, false⟩]
      (by decide) (by decide)⟩

end AINotes
